import Mathlib

/-!
Verification of `bin/calculate-optimal-chunks.py`: a shallow embedding of the
chunk-distribution pipeline (timing loader, static weight estimator, FFD bin
packer, chunk selector) together with theorems about its behaviour.

Numeric weights are modelled as exact rationals (`ℚ`): timing values and the
integer static weights of the source are both embedded into `ℚ`.
The Python call `sorted(items, key=lambda x: x[1], reverse=True)` is a stable
sort by weight descending; it is embedded below as a stable insertion sort
(`sortDesc`), which computes exactly the same list (stable sorts agree).
-/

namespace CalcChunks

/-- A `(name, weight)` pair, an element of the `items` argument of
`bin_packing_ffd`. -/
abbrev Item := String × ℚ

/-- Insert `x` into a weight-descending list, after every element of weight
`≥ x.2` already present earlier in processing order: together with `sortDesc`
this realises the stable descending sort by the weight component. -/
def insertDesc (x : Item) : List Item → List Item
  | [] => [x]
  | y :: ys => if x.2 < y.2 then y :: insertDesc x ys else x :: y :: ys

/-- Embeds `sorted(items, key=lambda x: x[1], reverse=True)`: stable,
weight-descending sort. -/
def sortDesc : List Item → List Item
  | [] => []
  | x :: xs => insertDesc x (sortDesc xs)

/-- Embeds `bin_weights.index(min(bin_weights))`: index of the first
occurrence of the minimum of the list (0 on the empty list, which the source
never hits because `main` guarantees `num_chunks ≥ 1`). -/
def idxOfMin : List ℚ → ℕ
  | [] => 0
  | [_] => 0
  | x :: y :: rest =>
    if x ≤ (y :: rest).getD (idxOfMin (y :: rest)) 0 then 0
    else idxOfMin (y :: rest) + 1

/-- One iteration of the packing loop: place the item into the first bin of
minimum accumulated weight and add its weight to the total of that bin. -/
def packStep (st : List (List Item) × List ℚ) (it : Item) :
    List (List Item) × List ℚ :=
  let i := idxOfMin st.2
  (st.1.set i (st.1.getD i [] ++ [it]), st.2.set i (st.2.getD i 0 + it.2))

/-- Embeds `bin_packing_ffd(items, num_bins)`: sort items by weight
descending, then fold the placement step over them starting from `num_bins`
empty bins. -/
def bin_packing_ffd (items : List Item) (numBins : ℕ) :
    List (List Item) × List ℚ :=
  (sortDesc items).foldl packStep
    (List.replicate numBins [], List.replicate numBins 0)

example : sortDesc [("a", 10), ("b", 1), ("c", 100)] =
    [("c", 100), ("a", 10), ("b", 1)] := by decide

example : bin_packing_ffd [("a", 10), ("b", 1), ("c", 100)] 2 =
    ([[("c", 100)], [("a", 10), ("b", 1)]], [100, 11]) := by
  norm_num [bin_packing_ffd, sortDesc, insertDesc, packStep, idxOfMin,
    List.replicate]

example : idxOfMin [3, 1, 1, 2] = 1 := by decide

/-! ### Static weight estimator (`calculate_static_weight`) -/

/-- What reading a spec file can yield: the file does not exist, it exists
but reading raises, or it is read as a list of lines. -/
inductive FileContent where
  | missing
  | unreadable
  | lines (ls : List String)

/-- The three block-opening keyword prefixes recognized by the tuple
argument of `startswith` in the source. -/
def blockKeywords : List String := ["It ", "Describe ", "Context "]

/-- The Python string method `strip`: remove leading and trailing
whitespace. -/
def pyStrip (s : String) : String :=
  ⟨((s.data.dropWhile Char.isWhitespace).reverse.dropWhile
    Char.isWhitespace).reverse⟩

/-- The Python string method call `s.startswith(pre)`. -/
def pyStartsWith (s pre : String) : Bool :=
  pre.data.isPrefixOf s.data

/-- A line counts as a test block when its stripped content starts with one
of the three recognized keyword prefixes. -/
def isTestBlock (line : String) : Bool :=
  blockKeywords.any (fun kw => pyStartsWith (pyStrip line) kw)

/-- Embeds `calculate_static_weight`: default weight 100 for a missing file
or a read failure, otherwise `line_count + test_blocks * 10`. -/
def calculate_static_weight : FileContent → ℚ
  | .missing => 100
  | .unreadable => 100
  | .lines ls => ls.length + (ls.countP isTestBlock) * 10

/-! ### Timing loader (`load_timings`) -/

/-- JSON values, the possible results of `json.load`. -/
inductive Json where
  | obj (entries : List (String × Json))
  | arr (elems : List Json)
  | str (s : String)
  | num (q : ℚ)
  | boolean (b : Bool)
  | null

/-- What opening and parsing the timing file can yield: the file is absent
(`FileNotFoundError`), its text is not valid JSON (`JSONDecodeError`), or it
parses to a JSON document. -/
inductive TimingSource where
  | missing
  | invalid
  | parsed (v : Json)

/-- Outcome of the loader: a returned value together with whether a
diagnostic was printed to stderr, or an uncaught exception. -/
inductive LoadResult where
  | ok (timings : Json) (diagnostic : Bool)
  | raised (exc : String)

/-- Key lookup in a JSON object (`dict.get(key, default)`; `json.load`
produces a dict, whose keys are unique). -/
def lookupKey (k : String) : List (String × Json) → Option Json
  | [] => none
  | (k', v) :: rest => if k' = k then some v else lookupKey k rest

/-- Embeds `load_timings`: `FileNotFoundError` and `json.JSONDecodeError`
are caught and yield the empty mapping with a diagnostic; on a parsed
document the loader returns the value under the key `timings` with the
empty-object default — but when the top level of the document is not an
object, the attribute `get` does not exist and an `AttributeError`
escapes. -/
def load_timings : TimingSource → LoadResult
  | .missing => .ok (.obj []) true
  | .invalid => .ok (.obj []) true
  | .parsed (.obj entries) => .ok ((lookupKey "timings" entries).getD (.obj [])) false
  | .parsed _ => .raised "AttributeError"

/-! ### Item construction and the main pipeline (`main`) -/

/-- Whether `main` uses the timing entry for a file:
`spec_file in timings and timings[spec_file] > 0`. -/
def usesTiming (timings : String → Option ℚ) (f : String) : Bool :=
  match timings f with
  | some t => decide (0 < t)
  | none => false

/-- The weight `main` assigns to a spec file: its timing when present and
strictly positive, the static estimate otherwise. -/
def itemWeight (timings : String → Option ℚ) (staticW : String → ℚ)
    (f : String) : ℚ :=
  match timings f with
  | some t => if 0 < t then t else staticW f
  | none => staticW f

/-- The `items` list `main` builds, in discovered (lexicographic) order. -/
def buildItems (timings : String → Option ℚ) (staticW : String → ℚ)
    (files : List String) : List Item :=
  files.map (fun f => (f, itemWeight timings staticW f))

/-- The `using_static` list: files whose timing entry is absent or not
strictly positive. -/
def usingStatic (timings : String → Option ℚ) (files : List String) :
    List String :=
  files.filter (fun f => ! usesTiming timings f)

/-- The single primary-output line for a chunk: the member names joined by
single spaces (an empty bin yields the empty line). -/
def chunkOutput (bins : List (List Item)) (idx : ℕ) : String :=
  String.intercalate (" ") ((bins.getD idx []).map Prod.fst)

/-- Observable outcome of one invocation: exit code, the primary-stream
line (`none` when nothing is printed to stdout), and the stderr lines. -/
structure RunOutcome where
  exitCode : ℕ
  stdout : Option String
  stderr : List String
deriving DecidableEq

/-- The usage diagnostic for an out-of-range chunk index. -/
def chunkIdxErr (numChunks : ℤ) : String :=
  "Error: chunk_index must be between 0 and " ++ toString (numChunks - 1)

/-- Stderr notice emitted when some files use static weights. -/
def staticNotice (timings : String → Option ℚ) (files : List String) :
    List String :=
  if (usingStatic timings files).isEmpty then []
  else ["Using static weights for " ++
    toString (usingStatic timings files).length ++ " files (no timing data)"]

/-- The per-chunk distribution summary printed to stderr (the float
formatting of the source is abstracted to `toString`). -/
def distributionDiag (bins : List (List Item)) (ws : List ℚ) : List String :=
  "Chunk distribution (bin-packing algorithm):" ::
    (bins.zip ws).map (fun bw =>
      "Chunk: " ++ toString bw.2 ++ "s (" ++ toString bw.1.length ++ " files)")

/-- Embeds `main` after argument parsing, over an abstract environment:
parsed `num_chunks` and `chunk_index`, the timing table, the discovered file
list (already sorted by discovery) and the static estimator. The chunk-index
range check precedes everything else, mirroring the order in the source. -/
def runMain (numChunks chunkIdx : ℤ) (timings : String → Option ℚ)
    (files : List String) (staticW : String → ℚ) : RunOutcome :=
  if chunkIdx < 0 ∨ numChunks ≤ chunkIdx then
    ⟨1, none, [chunkIdxErr numChunks]⟩
  else if files.isEmpty then
    ⟨1, none, ["Error: No spec files found"]⟩
  else
    let items := buildItems timings staticW files
    let packed := bin_packing_ffd items numChunks.toNat
    ⟨0, some (chunkOutput packed.1 chunkIdx.toNat),
      staticNotice timings files ++ distributionDiag packed.1 packed.2⟩

/-! ### Properties of the stable descending sort -/

theorem insertDesc_perm (x : Item) (l : List Item) :
    List.Perm (insertDesc x l) (x :: l) := by
  induction l with
  | nil => exact List.Perm.refl _
  | cons y ys ih =>
    by_cases h : x.2 < y.2
    · simp only [insertDesc, if_pos h]
      exact (ih.cons y).trans (List.Perm.swap x y ys)
    · simp only [insertDesc, if_neg h]
      exact List.Perm.refl _

theorem sortDesc_perm (l : List Item) : List.Perm (sortDesc l) l := by
  induction l with
  | nil => exact List.Perm.refl _
  | cons x xs ih => exact (insertDesc_perm x (sortDesc xs)).trans (ih.cons x)

theorem insertDesc_pairwise (x : Item) (l : List Item)
    (h : l.Pairwise (fun a b => b.2 ≤ a.2)) :
    (insertDesc x l).Pairwise (fun a b => b.2 ≤ a.2) := by
  induction l with
  | nil => simp [insertDesc]
  | cons y ys ih =>
    rw [List.pairwise_cons] at h
    by_cases hxy : x.2 < y.2
    · simp only [insertDesc, if_pos hxy]
      rw [List.pairwise_cons]
      refine ⟨?_, ih h.2⟩
      intro z hz
      rcases List.mem_cons.mp ((insertDesc_perm x ys).mem_iff.mp hz) with rfl | hz2
      · exact le_of_lt hxy
      · exact h.1 z hz2
    · simp only [insertDesc, if_neg hxy]
      rw [List.pairwise_cons]
      refine ⟨?_, List.pairwise_cons.mpr h⟩
      intro z hz
      rcases List.mem_cons.mp hz with rfl | hz
      · exact le_of_not_lt hxy
      · exact le_trans (h.1 z hz) (le_of_not_lt hxy)

theorem sortDesc_pairwise (l : List Item) :
    (sortDesc l).Pairwise (fun a b => b.2 ≤ a.2) := by
  induction l with
  | nil => simp [sortDesc]
  | cons x xs ih => exact insertDesc_pairwise x (sortDesc xs) ih

theorem insertDesc_filter (x : Item) (l : List Item) (w : ℚ) :
    (insertDesc x l).filter (fun z => decide (z.2 = w)) =
      (x :: l).filter (fun z => decide (z.2 = w)) := by
  induction l with
  | nil => rfl
  | cons y ys ih =>
    by_cases hxy : x.2 < y.2
    · simp only [insertDesc, if_pos hxy]
      by_cases hx : x.2 = w
      · have hy : ¬ y.2 = w := by
          intro hyw
          rw [hx, hyw] at hxy
          exact lt_irrefl w hxy
        simp [List.filter_cons, ih, hx, hy]
      · simp [List.filter_cons, ih, hx]
    · simp only [insertDesc, if_neg hxy]

theorem sortDesc_filter (l : List Item) (w : ℚ) :
    (sortDesc l).filter (fun z => decide (z.2 = w)) =
      l.filter (fun z => decide (z.2 = w)) := by
  induction l with
  | nil => rfl
  | cons x xs ih =>
    simp only [sortDesc, insertDesc_filter, List.filter_cons, ih]

/-! ### Properties of the first-minimum index -/

theorem idxOfMin_lt (l : List ℚ) (h : l ≠ []) : idxOfMin l < l.length := by
  induction l with
  | nil => exact absurd rfl h
  | cons x xs ih =>
    cases xs with
    | nil => simp [idxOfMin]
    | cons y rest =>
      have h2 := ih (List.cons_ne_nil y rest)
      simp only [idxOfMin, List.length_cons] at h2 ⊢
      split
      · omega
      · omega

theorem idxOfMin_le (l : List ℚ) :
    ∀ j, j < l.length → l.getD (idxOfMin l) 0 ≤ l.getD j 0 := by
  induction l with
  | nil => intro j hj; simp at hj
  | cons x xs ih =>
    cases xs with
    | nil =>
      intro j hj
      have : j = 0 := by simpa using Nat.lt_one_iff.mp (by simpa using hj)
      subst this
      simp [idxOfMin]
    | cons y rest =>
      intro j hj
      simp only [idxOfMin]
      split
      · rename_i hle
        cases j with
        | zero => simp
        | succ j' =>
          simp only [List.getD_cons_succ, List.getD_cons_zero]
          exact le_trans hle (ih j' (by simpa using hj))
      · rename_i hgt
        cases j with
        | zero =>
          simp only [List.getD_cons_succ, List.getD_cons_zero]
          exact le_of_lt (lt_of_not_le hgt)
        | succ j' =>
          simp only [List.getD_cons_succ]
          exact ih j' (by simpa using hj)

theorem idxOfMin_first (l : List ℚ) :
    ∀ j, j < idxOfMin l → l.getD (idxOfMin l) 0 < l.getD j 0 := by
  induction l with
  | nil => intro j hj; simp [idxOfMin] at hj
  | cons x xs ih =>
    cases xs with
    | nil => intro j hj; simp [idxOfMin] at hj
    | cons y rest =>
      intro j hj
      by_cases hc : x ≤ (y :: rest).getD (idxOfMin (y :: rest)) 0
      · simp only [idxOfMin, if_pos hc] at hj
        exact absurd hj (Nat.not_lt_zero j)
      · simp only [idxOfMin, if_neg hc] at hj ⊢
        cases j with
        | zero =>
          simp only [List.getD_cons_succ, List.getD_cons_zero]
          exact lt_of_not_le hc
        | succ j' =>
          simp only [List.getD_cons_succ]
          exact ih j' (by omega)

/-! ### List update facts -/

theorem getD_set_eq {α : Type} (l : List α) (i : ℕ) (v d : α)
    (h : i < l.length) : (l.set i v).getD i d = v := by
  induction l generalizing i with
  | nil => simp at h
  | cons x xs ih =>
    cases i with
    | zero => simp
    | succ i' => simpa using ih i' (by simpa using h)

theorem getD_set_ne {α : Type} (l : List α) (i j : ℕ) (v d : α)
    (h : i ≠ j) : (l.set i v).getD j d = l.getD j d := by
  induction l generalizing i j with
  | nil => simp
  | cons x xs ih =>
    cases i with
    | zero =>
      cases j with
      | zero => exact absurd rfl h
      | succ j' => simp
    | succ i' =>
      cases j with
      | zero => simp
      | succ j' => simpa using ih i' j' (fun e => h (by rw [e]))

theorem sum_set_add (l : List ℚ) (i : ℕ) (w : ℚ) (h : i < l.length) :
    (l.set i (l.getD i 0 + w)).sum = l.sum + w := by
  induction l generalizing i with
  | nil => simp at h
  | cons x xs ih =>
    cases i with
    | zero =>
      simp only [List.getD_cons_zero, List.set_cons_zero, List.sum_cons]
      ring
    | succ i' =>
      simp only [List.getD_cons_succ, List.set_cons_succ, List.sum_cons]
      rw [ih i' (by simpa using h)]
      ring

theorem flatten_set_append {α : Type} (bins : List (List α)) (i : ℕ) (x : α)
    (h : i < bins.length) :
    List.Perm (bins.set i (bins.getD i [] ++ [x])).flatten
      (bins.flatten ++ [x]) := by
  induction bins generalizing i with
  | nil => simp at h
  | cons b bs ih =>
    cases i with
    | zero =>
      simp only [List.set_cons_zero, List.getD_cons_zero, List.flatten_cons]
      rw [List.append_assoc, List.append_assoc]
      exact List.Perm.append_left b List.perm_append_comm
    | succ i' =>
      simp only [List.set_cons_succ, List.getD_cons_succ, List.flatten_cons]
      rw [List.append_assoc]
      exact List.Perm.append_left b (ih i' (by simpa using h))

/-! ### Invariants of the packing fold -/

/-- Invariants of the packing loop: bin and weight counts are preserved, the
flattened bins collect exactly the processed items, total weight accumulates
exactly, per-bin weights track per-bin members, and every bin stays a
subsequence of the processed prefix. -/
theorem foldl_packStep_inv (s : List Item) :
    ∀ (bins : List (List Item)) (ws : List ℚ),
      bins.length = ws.length → 0 < ws.length →
      (s.foldl packStep (bins, ws)).1.length = bins.length
      ∧ (s.foldl packStep (bins, ws)).2.length = ws.length
      ∧ List.Perm (s.foldl packStep (bins, ws)).1.flatten (bins.flatten ++ s)
      ∧ (s.foldl packStep (bins, ws)).2.sum
          = ws.sum + (s.map (fun z => z.2)).sum
      ∧ ((∀ i, ws.getD i 0 = ((bins.getD i []).map (fun z => z.2)).sum) →
          ∀ i, (s.foldl packStep (bins, ws)).2.getD i 0 =
            (((s.foldl packStep (bins, ws)).1.getD i []).map (fun z => z.2)).sum)
      ∧ (∀ done : List Item, (∀ i, List.Sublist (bins.getD i []) done) →
          ∀ i, List.Sublist ((s.foldl packStep (bins, ws)).1.getD i [])
            (done ++ s)) := by
  induction s with
  | nil =>
    intro bins ws hlen hpos
    exact ⟨rfl, rfl, by simp, by simp, fun h i => h i,
      fun done hsub i => by simpa using hsub i⟩
  | cons it rest ih =>
    intro bins ws hlen hpos
    have hwsne : ws ≠ [] := by
      intro h
      rw [h] at hpos
      exact lt_irrefl 0 hpos
    have hi0 : idxOfMin ws < ws.length := idxOfMin_lt ws hwsne
    have hi0b : idxOfMin ws < bins.length := by omega
    have hstep : packStep (bins, ws) it =
        (bins.set (idxOfMin ws) (bins.getD (idxOfMin ws) [] ++ [it]),
         ws.set (idxOfMin ws) (ws.getD (idxOfMin ws) 0 + it.2)) := rfl
    have hlen' :
        (bins.set (idxOfMin ws) (bins.getD (idxOfMin ws) [] ++ [it])).length
        = (ws.set (idxOfMin ws) (ws.getD (idxOfMin ws) 0 + it.2)).length := by
      simp [hlen]
    have hpos' :
        0 < (ws.set (idxOfMin ws) (ws.getD (idxOfMin ws) 0 + it.2)).length := by
      simpa using hpos
    obtain ⟨e1, e2, e3, e4, e5, e6⟩ := ih _ _ hlen' hpos'
    simp only [List.foldl_cons, hstep]
    refine ⟨?_, ?_, ?_, ?_, ?_, ?_⟩
    · rw [e1]; simp
    · rw [e2]; simp
    · refine e3.trans ?_
      refine ((flatten_set_append bins (idxOfMin ws) it hi0b).append_right
        rest).trans ?_
      have heq : (bins.flatten ++ [it]) ++ rest = bins.flatten ++ it :: rest := by
        simp
      rw [heq]
    · rw [e4, sum_set_add ws _ it.2 hi0]
      simp only [List.map_cons, List.sum_cons]
      ring
    · intro h i
      refine e5 ?_ i
      intro j
      by_cases hji : j = idxOfMin ws
      · subst hji
        rw [getD_set_eq _ _ _ _ hi0, getD_set_eq _ _ _ _ hi0b,
          h (idxOfMin ws), List.map_append, List.sum_append]
        simp
      · rw [getD_set_ne _ _ _ _ _ (fun e => hji e.symm),
          getD_set_ne _ _ _ _ _ (fun e => hji e.symm)]
        exact h j
    · intro done hsub i
      have hsub' : ∀ j,
          List.Sublist ((bins.set (idxOfMin ws)
            (bins.getD (idxOfMin ws) [] ++ [it])).getD j []) (done ++ [it]) := by
        intro j
        by_cases hji : j = idxOfMin ws
        · subst hji
          rw [getD_set_eq _ _ _ _ hi0b]
          exact (hsub _).append (List.Sublist.refl [it])
        · rw [getD_set_ne _ _ _ _ _ (fun e => hji e.symm)]
          exact (hsub j).trans (List.sublist_append_left done [it])
      have h6 := e6 (done ++ [it]) hsub' i
      simpa [List.append_assoc] using h6

theorem getD_replicate {α : Type} (n i : ℕ) (a d : α) :
    (List.replicate n a).getD i d = if i < n then a else d := by
  induction n generalizing i with
  | zero => simp
  | succ n' ih =>
    cases i with
    | zero => simp [List.replicate_succ]
    | succ i' =>
      rw [List.replicate_succ, List.getD_cons_succ, ih]
      by_cases h : i' < n' <;> simp [h, Nat.succ_lt_succ_iff]

theorem flatten_replicate_nil {α : Type} (n : ℕ) :
    (List.replicate n ([] : List α)).flatten = [] := by
  induction n with
  | zero => rfl
  | succ n' ih => simp [List.replicate_succ, ih]

theorem sum_replicate_zero (n : ℕ) : (List.replicate n (0 : ℚ)).sum = 0 := by
  induction n with
  | zero => rfl
  | succ n' ih => simp [List.replicate_succ, ih]

/-! ### Claim theorems -/

/-- Claim C1: the bin packer implements first-fit-decreasing by least-loaded
bin. For every item list and every N ≥ 1: the processing order `sortDesc` is
a permutation of the input sorted by weight descending with ties kept in
original relative order (stable); `bin_packing_ffd` folds the placement step
over that order starting from N empty bins with zero weight; and each
placement step puts the item into the bin of minimum accumulated weight,
choosing the first such bin on ties, and adds the weight of the item
there. -/
theorem ffd_sorts_then_places_least_loaded (items : List Item) (N : ℕ)
    (hN : 1 ≤ N) :
    List.Perm (sortDesc items) items
    ∧ (sortDesc items).Pairwise (fun a b => b.2 ≤ a.2)
    ∧ (∀ w : ℚ, (sortDesc items).filter (fun z => decide (z.2 = w)) =
        items.filter (fun z => decide (z.2 = w)))
    ∧ bin_packing_ffd items N =
        (sortDesc items).foldl packStep
          (List.replicate N [], List.replicate N 0)
    ∧ List.replicate N (0 : ℚ) ≠ []
    ∧ (∀ (bins : List (List Item)) (ws : List ℚ) (it : Item), ws ≠ [] →
        ∃ k, k < ws.length
          ∧ (∀ j, j < ws.length → ws.getD k 0 ≤ ws.getD j 0)
          ∧ (∀ j, j < k → ws.getD k 0 < ws.getD j 0)
          ∧ packStep (bins, ws) it =
              (bins.set k (bins.getD k [] ++ [it]),
               ws.set k (ws.getD k 0 + it.2))) := by
  refine ⟨sortDesc_perm items, sortDesc_pairwise items, sortDesc_filter items,
    rfl, ?_, ?_⟩
  · intro h
    have := congrArg List.length h
    simp at this
    omega
  · intro bins ws it hws
    exact ⟨idxOfMin ws, idxOfMin_lt ws hws, fun j hj => idxOfMin_le ws j hj,
      fun j hj => idxOfMin_first ws j hj, rfl⟩

/-- Witness for C1 at a concrete input. -/
theorem ffd_sorts_then_places_least_loaded_witness :
    List.Perm (sortDesc [("a", (1 : ℚ))]) [("a", (1 : ℚ))]
    ∧ bin_packing_ffd [("a", (1 : ℚ))] 1 =
        (sortDesc [("a", (1 : ℚ))]).foldl packStep
          (List.replicate 1 [], List.replicate 1 0) :=
  ⟨(ffd_sorts_then_places_least_loaded [("a", 1)] 1 (by decide)).1,
   (ffd_sorts_then_places_least_loaded [("a", 1)] 1 (by decide)).2.2.2.1⟩

/-- Claim C2: for every item list and every N ≥ 1 the returned bins form an
exact partition of the input: there are exactly N bins and the concatenation
of their members is a permutation of the input (every item in exactly one
bin, none duplicated, none omitted). -/
theorem ffd_exact_partition (items : List Item) (N : ℕ) (hN : 1 ≤ N) :
    (bin_packing_ffd items N).1.length = N
    ∧ List.Perm (bin_packing_ffd items N).1.flatten items := by
  have hlen : (List.replicate N ([] : List Item)).length
      = (List.replicate N (0 : ℚ)).length := by simp
  have hpos : 0 < (List.replicate N (0 : ℚ)).length := by simpa using hN
  obtain ⟨e1, e2, e3, e4, e5, e6⟩ :=
    foldl_packStep_inv (sortDesc items) _ _ hlen hpos
  constructor
  · simp only [bin_packing_ffd]
    rw [e1]
    simp
  · simp only [bin_packing_ffd]
    refine e3.trans ?_
    rw [flatten_replicate_nil]
    simpa using sortDesc_perm items

/-- Witness for C2 at a concrete input. -/
theorem ffd_exact_partition_witness :
    (bin_packing_ffd [("a", (1 : ℚ))] 1).1.length = 1
    ∧ List.Perm (bin_packing_ffd [("a", (1 : ℚ))] 1).1.flatten
        [("a", (1 : ℚ))] :=
  ffd_exact_partition [("a", 1)] 1 (by decide)

/-- Claim C3: weight is conserved. For every item list and every N ≥ 1,
every accumulated bin weight equals the sum of the member weights of that
bin, and the accumulated weights sum to the total input weight. -/
theorem ffd_weight_conservation (items : List Item) (N : ℕ) (hN : 1 ≤ N) :
    (∀ i, (bin_packing_ffd items N).2.getD i 0 =
      (((bin_packing_ffd items N).1.getD i []).map (fun z => z.2)).sum)
    ∧ (bin_packing_ffd items N).2.sum = (items.map (fun z => z.2)).sum := by
  have hlen : (List.replicate N ([] : List Item)).length
      = (List.replicate N (0 : ℚ)).length := by simp
  have hpos : 0 < (List.replicate N (0 : ℚ)).length := by simpa using hN
  obtain ⟨e1, e2, e3, e4, e5, e6⟩ :=
    foldl_packStep_inv (sortDesc items) _ _ hlen hpos
  constructor
  · simp only [bin_packing_ffd]
    refine e5 ?_
    intro i
    rw [getD_replicate, getD_replicate]
    by_cases h : i < N <;> simp [h]
  · simp only [bin_packing_ffd]
    rw [e4, sum_replicate_zero, zero_add]
    exact (((sortDesc_perm items).map (fun z => z.2)).sum_eq)

/-- Witness for C3 at a concrete input. -/
theorem ffd_weight_conservation_witness :
    (bin_packing_ffd [("a", (2 : ℚ))] 1).2.getD 0 0 =
      (((bin_packing_ffd [("a", (2 : ℚ))] 1).1.getD 0 []).map
        (fun z => z.2)).sum
    ∧ (bin_packing_ffd [("a", (2 : ℚ))] 1).2.sum =
        ([("a", (2 : ℚ))].map (fun z => z.2)).sum :=
  ⟨(ffd_weight_conservation [("a", 2)] 1 (by decide)).1 0,
   (ffd_weight_conservation [("a", 2)] 1 (by decide)).2⟩

/-- Claim C10: within every bin the members appear in non-increasing weight
order, equal-weight members keeping their original relative order (the
equal-weight subsequence of each bin is a subsequence of the corresponding
subsequence of the input), because items are appended in sorted processing
order; and the primary-output line for a chunk lists the members of that
bin in exactly that order. -/
theorem bins_internally_sorted (items : List Item) (N : ℕ) (hN : 1 ≤ N)
    (i : ℕ) :
    ((bin_packing_ffd items N).1.getD i []).Pairwise (fun a b => b.2 ≤ a.2)
    ∧ (∀ w : ℚ, List.Sublist
        (((bin_packing_ffd items N).1.getD i []).filter
          (fun z => decide (z.2 = w)))
        (items.filter (fun z => decide (z.2 = w))))
    ∧ chunkOutput (bin_packing_ffd items N).1 i =
        String.intercalate (" ")
          (((bin_packing_ffd items N).1.getD i []).map Prod.fst) := by
  have hlen : (List.replicate N ([] : List Item)).length
      = (List.replicate N (0 : ℚ)).length := by simp
  have hpos : 0 < (List.replicate N (0 : ℚ)).length := by simpa using hN
  obtain ⟨e1, e2, e3, e4, e5, e6⟩ :=
    foldl_packStep_inv (sortDesc items) _ _ hlen hpos
  have hsubl : List.Sublist ((bin_packing_ffd items N).1.getD i [])
      (sortDesc items) := by
    have h := e6 [] (fun j => by rw [getD_replicate]; split <;> simp) i
    simpa [bin_packing_ffd] using h
  refine ⟨List.Pairwise.sublist hsubl (sortDesc_pairwise items), ?_, rfl⟩
  intro w
  have hf := hsubl.filter (fun z => decide (z.2 = w))
  rwa [sortDesc_filter] at hf

/-- Witness for C10 at a concrete input. -/
theorem bins_internally_sorted_witness :
    ((bin_packing_ffd [("a", (1 : ℚ))] 1).1.getD 0 []).Pairwise
      (fun a b => b.2 ≤ a.2)
    ∧ List.Sublist
        (((bin_packing_ffd [("a", (1 : ℚ))] 1).1.getD 0 []).filter
          (fun z => decide (z.2 = (1 : ℚ))))
        ([("a", (1 : ℚ))].filter (fun z => decide (z.2 = (1 : ℚ)))) :=
  ⟨(bins_internally_sorted [("a", 1)] 1 (by decide) 0).1,
   (bins_internally_sorted [("a", 1)] 1 (by decide) 0).2.1 1⟩

/-! ### The end-to-end example of the spec (claim C4) -/

/-- Discovered files of the example, in lexicographic discovery order. -/
def exampleFiles : List String :=
  ["spec/a_spec.sh", "spec/b_spec.sh", "spec/c_spec.sh"]

/-- Timing table of the example: a ↦ 10, b ↦ 1, c absent. -/
def exampleTimings : String → Option ℚ := fun f =>
  if f = "spec/a_spec.sh" then some 10
  else if f = "spec/b_spec.sh" then some 1
  else none

/-- Static estimator of the example: c is absent from the filesystem, so the
estimator returns the fixed default weight. -/
def exampleStatic : String → ℚ := fun _ => calculate_static_weight .missing

/-- The items `main` builds in the example. -/
def exampleItems : List Item :=
  buildItems exampleTimings exampleStatic exampleFiles

/-- Claim C4: on items a(10), b(1), c(100, static fallback) in discovery
order with `num_chunks = 2`: the sort yields c, a, b; bin 0 receives c and
bin 1 receives a then b ending at weight 11; chunk 0 prints the identifier
of c and chunk 1 prints the identifiers of a and b space-separated in that
order. -/
theorem ffd_example_end_to_end :
    exampleItems = [("spec/a_spec.sh", 10), ("spec/b_spec.sh", 1),
      ("spec/c_spec.sh", 100)]
    ∧ sortDesc exampleItems = [("spec/c_spec.sh", 100),
        ("spec/a_spec.sh", 10), ("spec/b_spec.sh", 1)]
    ∧ bin_packing_ffd exampleItems 2 =
        ([[("spec/c_spec.sh", 100)],
          [("spec/a_spec.sh", 10), ("spec/b_spec.sh", 1)]], [100, 11])
    ∧ (runMain 2 0 exampleTimings exampleFiles exampleStatic).stdout =
        some "spec/c_spec.sh"
    ∧ (runMain 2 1 exampleTimings exampleFiles exampleStatic).stdout =
        some "spec/a_spec.sh spec/b_spec.sh" := by
  refine ⟨?_, ?_, ?_, ?_, ?_⟩ <;>
    · simp +decide [exampleItems, exampleFiles, exampleTimings, exampleStatic,
        buildItems, itemWeight, calculate_static_weight, sortDesc, insertDesc,
        bin_packing_ffd, packStep, idxOfMin, List.replicate, runMain,
        chunkOutput]
      try norm_num

/-! ### Static weight estimator (claim C5) -/

/-- Claim C5: the estimator returns `line_count + test_blocks * 10` for
every readable existing file, a test block being a line whose trimmed
content starts with one of exactly the three recognized keyword prefixes;
a 50-line file with 2 block-opening lines yields 70; a nonexistent file
yields the fixed default 100 (no abort). -/
theorem static_weight_formula :
    (∀ ls : List String, calculate_static_weight (.lines ls) =
      (ls.length : ℚ) + (ls.countP isTestBlock : ℚ) * 10)
    ∧ (∀ line, isTestBlock line =
        (pyStartsWith (pyStrip line) ("It ")
          || pyStartsWith (pyStrip line) ("Describe ")
          || pyStartsWith (pyStrip line) ("Context ")))
    ∧ (∀ ls : List String, ls.length = 50 → ls.countP isTestBlock = 2 →
        calculate_static_weight (.lines ls) = 70)
    ∧ calculate_static_weight .missing = 100 := by
  refine ⟨fun ls => rfl, ?_, ?_, rfl⟩
  · intro line
    simp [isTestBlock, blockKeywords, Bool.or_assoc]
  · intro ls h1 h2
    show (ls.length : ℚ) + (ls.countP isTestBlock : ℚ) * 10 = 70
    rw [h1, h2]
    norm_num

/-- A concrete 50-line file with exactly two block-opening lines. -/
def demoLines : List String := "It a" :: "Describe b" :: List.replicate 48 "x"

/-- Witness for C5 at the concrete 50-line file. -/
theorem static_weight_formula_witness :
    calculate_static_weight (.lines demoLines) = 70 :=
  static_weight_formula.2.2.1 demoLines (by simp [demoLines]) (by decide)

/-! ### Determinism (claim C6) -/

/-- Claim C6: packing is deterministic — invocations with identical timing
tables, static estimators, discovered file lists, chunk counts and chunk
indices produce identical bins, weights, and pipeline outcomes. -/
theorem packing_deterministic
    (t₁ t₂ : String → Option ℚ) (s₁ s₂ : String → ℚ)
    (f₁ f₂ : List String) (n₁ n₂ ci₁ ci₂ : ℤ) (N₁ N₂ : ℕ)
    (ht : t₁ = t₂) (hs : s₁ = s₂) (hf : f₁ = f₂) (hn : n₁ = n₂)
    (hci : ci₁ = ci₂) (hN : N₁ = N₂) :
    bin_packing_ffd (buildItems t₁ s₁ f₁) N₁ =
      bin_packing_ffd (buildItems t₂ s₂ f₂) N₂
    ∧ runMain n₁ ci₁ t₁ f₁ s₁ = runMain n₂ ci₂ t₂ f₂ s₂ := by
  subst ht hs hf hn hci hN
  exact ⟨rfl, rfl⟩

/-- Witness for C6 at a concrete input. -/
theorem packing_deterministic_witness :
    bin_packing_ffd (buildItems (fun _ => none) (fun _ => 100)
        ["spec/a_spec.sh"]) 1 =
      bin_packing_ffd (buildItems (fun _ => none) (fun _ => 100)
        ["spec/a_spec.sh"]) 1
    ∧ runMain 1 0 (fun _ => none) ["spec/a_spec.sh"] (fun _ => 100) =
        runMain 1 0 (fun _ => none) ["spec/a_spec.sh"] (fun _ => 100) :=
  packing_deterministic _ _ _ _ _ _ _ _ _ _ 1 1 rfl rfl rfl rfl rfl rfl

/-! ### Chunk-index validation (claim C7) -/

/-- Claim C7: whenever `chunk_index` lies outside `[0, num_chunks)` — which
is always the case when `num_chunks ≤ 0` — the program exits with status 1,
prints a diagnostic to stderr, and prints nothing on stdout; the outcome is
the same for every timing table, file list, and estimator, so the rejection
precedes any loading, discovery, estimation, or packing. -/
theorem chunk_index_rejection :
    (∀ (nc ci : ℤ), (ci < 0 ∨ nc ≤ ci) →
      ∀ (t : String → Option ℚ) (f : List String) (s : String → ℚ),
        runMain nc ci t f s = ⟨1, none, [chunkIdxErr nc]⟩)
    ∧ (∀ nc : ℤ, nc ≤ 0 → ∀ ci : ℤ, ci < 0 ∨ nc ≤ ci) := by
  constructor
  · intro nc ci h t f s
    unfold runMain
    rw [if_pos h]
  · intro nc h ci
    omega

/-- Witness for C7 at a concrete out-of-range index and chunk count. -/
theorem chunk_index_rejection_witness :
    runMain 2 5 (fun _ => none) ["spec/a_spec.sh"] (fun _ => 100) =
      ⟨1, none, [chunkIdxErr 2]⟩
    ∧ ((7 : ℤ) < 0 ∨ (0 : ℤ) ≤ 7) :=
  ⟨chunk_index_rejection.1 2 5 (Or.inr (by norm_num)) (fun _ => none)
      ["spec/a_spec.sh"] (fun _ => 100),
   chunk_index_rejection.2 0 (by norm_num) 7⟩

/-! ### Timing loader (claim C8, corrected) -/

/-- Counterexample to C8 as stated: a timing file whose content is valid
JSON but not an object — here the document `[]` — is malformed input on
which the loader does not return the empty mapping: `data.get` does not
exist on a list and an `AttributeError` escapes uncaught. -/
theorem load_timings_nonobject_raises :
    load_timings (.parsed (.arr [])) = .raised "AttributeError"
    ∧ load_timings (.parsed (.arr [])) ≠ .ok (.obj []) true :=
  ⟨rfl, fun h => LoadResult.noConfusion h⟩

/-- Claim C8 (amended): the loader is non-fatal when the file is missing or
its text fails JSON parsing: it returns the empty mapping after reporting a
diagnostic; content that parses to a non-object JSON value instead raises an
uncaught `AttributeError`. -/
theorem load_timings_recovers (src : TimingSource)
    (h : src = .missing ∨ src = .invalid) :
    load_timings src = .ok (.obj []) true := by
  rcases h with rfl | rfl <;> rfl

/-- Witness for the amended C8 at the missing-file input. -/
theorem load_timings_recovers_witness :
    load_timings .missing = .ok (.obj []) true :=
  load_timings_recovers .missing (Or.inl rfl)

/-! ### Strictly-positive timing filter (claim C9) -/

/-- Claim C9: a timing entry is used as a weight only when strictly
positive: a discovered file whose timing entry is ≤ 0 gets the static
estimate as its weight and is counted among the files using static
weights. -/
theorem nonpositive_timing_uses_static
    (timings : String → Option ℚ) (staticW : String → ℚ)
    (files : List String) (f : String) (t : ℚ)
    (ht : timings f = some t) (hle : t ≤ 0) :
    itemWeight timings staticW f = staticW f
    ∧ usesTiming timings f = false
    ∧ (f ∈ files → f ∈ usingStatic timings files) := by
  refine ⟨?_, ?_, ?_⟩
  · unfold itemWeight
    rw [ht]
    simp [not_lt.mpr hle]
  · unfold usesTiming
    rw [ht]
    simp [not_lt.mpr hle]
  · intro hf
    unfold usingStatic
    rw [List.mem_filter]
    refine ⟨hf, ?_⟩
    simp [usesTiming, ht, not_lt.mpr hle]

/-- Witness for C9 at a concrete zero-timing entry. -/
theorem nonpositive_timing_uses_static_witness :
    itemWeight (fun _ => some 0) (fun _ => 42) "f" = 42
    ∧ usesTiming (fun _ => some 0) "f" = false
    ∧ "f" ∈ usingStatic (fun _ => some 0) ["f"] :=
  have h := nonpositive_timing_uses_static (fun _ => some 0)
    (fun _ => (42 : ℚ)) ["f"] "f" 0 rfl le_rfl
  ⟨h.1, h.2.1, h.2.2 (by simp)⟩

end CalcChunks
